import Mathlib

set_option maxRecDepth 8000

/-!
# Verification of the Whist-AI game engine

Shallow embedding of the Whist/Bridge engine (`cards.py`, `players.py`,
`state.py`, `game.py`, `multi_agents.py`) together with proofs of the
testable properties stated in the specification.

Modelling conventions:
* A card face is its index in `FACES = ['2',…,'A']`, i.e. `Fin 13`;
  a suit is its index in `SUITS = [S, H, D, C]`, i.e. `Fin 4`.
* In the Python code each `Card` stores an `is_trump` flag computed at
  construction time from the match-level trump (`Card.__init__`:
  `self.is_trump = self.suit.is_trump` where
  `Suit.is_trump = (trump_suit.value == suit_type.value)`).  All cards
  flowing through one game share the same trump context, so here the
  flag is computed from an explicit `trump : Option (Fin 4)` parameter
  (`none` models `TrumpType.NT`).  With that, Python's `Card.__eq__`
  (face and suit) coincides with structural equality.
* Python `set`s of cards are modelled as duplicate-free lists, `set.add`
  as `List.insert`.
* The file `trick.py` is imported by `state.py` and `game.py` but is not
  part of the sources; the `Trick` class is modelled from the
  specification (see the doc-comments on `Trick`).
-/

/-- The four seats, `players.py` `PositionEnum` (N, E, S, W). -/
inductive Position where
  | N | E | S | W
deriving DecidableEq, Repr, Fintype

/-- `players.py` `PLAYERS_CYCLE`: N → E → S → W → N. -/
def nextPos : Position → Position
  | Position.N => Position.E
  | Position.E => Position.S
  | Position.S => Position.W
  | Position.W => Position.N

/-- Index of a seat in the order the players list is built (`zip(POSITIONS, hands)`). -/
def posIdx : Position → Nat
  | Position.N => 0
  | Position.E => 1
  | Position.S => 2
  | Position.W => 3

/-- A playing card, `cards.py` class `Card`: a face (index into `FACES`)
and a suit (index into `SUITS`).  The `is_trump` flag is derived from
the trump context, see `isTrump`. -/
structure Card where
  face : Fin 13
  suit : Fin 4
deriving DecidableEq, Repr

/-- `Card.is_trump` / `Suit.is_trump`: the card's suit equals the match
trump suit (`none` is no-trump, in which case no card is trump). -/
def isTrump (trump : Option (Fin 4)) (c : Card) : Bool :=
  trump == some c.suit

/-- `cards.py` `Card.__lt__` (lines 193–205), translated verbatim:
a non-trump card is below any trump card; two cards of the same suit
compare by face index; in the remaining cross-suit branch the source
compares `SUITS.index(self.suit…)` with `SUITS.index(self.suit…)` —
the same suit on both sides — so that branch is `False` for all inputs. -/
def cardLt (trump : Option (Fin 4)) (a b : Card) : Bool :=
  if isTrump trump b && !(isTrump trump a) then true
  else if isTrump trump a && !(isTrump trump b) then false
  else if a.suit == b.suit then decide (a.face < b.face)
  else decide (a.suit < a.suit) && decide (a.face < b.face)

/-- Modelled from the spec: `trick.py` is imported by `state.py` and
`game.py` but absent from the sources.  Spec §3: "a partial mapping from
Player → Card for the current round, capped at 4 entries (one per
player), plus the starting suit (suit of the first card played this
round, fixed once the first card is added)".  We keep the entries in
order of play, so the starting suit is the first entry's suit. -/
structure Trick where
  entries : List (Position × Card)
deriving DecidableEq, Repr

/-- Modelled from the spec: the starting suit is the suit of the first
card played this round; `None` while the trick is empty (spec §3, §4.2:
"if suit is absent (no lead suit yet)"). -/
def Trick.startingSuit (t : Trick) : Option (Fin 4) :=
  t.entries.head?.map (fun e => e.2.suit)

/-- Modelled from the spec: `len(trick)` is the number of entries. -/
def Trick.size (t : Trick) : Nat :=
  t.entries.length

/-- Modelled from the spec (§4.1): `add_card(player, card)` records the
player's card; the first card fixes the starting suit (automatic here
since entries are kept in play order).  The §4.1 rejection of a
duplicate player or a full trick is an assertion in the callers
(`state.py` line 62 asserts `len(trick) < 4` before adding). -/
def Trick.addCard (t : Trick) (p : Position) (c : Card) : Trick :=
  ⟨t.entries ++ [(p, c)]⟩

/-- Modelled from the spec: `trick.cards()` returns the played cards
(used by `game.py` and the greedy agents). -/
def Trick.cards (t : Trick) : List Card :=
  t.entries.map (fun e => e.2)

/-- The maximal entry of `e0 :: es` under the Card ordering, computed
the way Python's `max` does: keep the current element unless a later
one is strictly greater (`current < x`). -/
def winnerEntry (trump : Option (Fin 4)) (e0 : Position × Card)
    (es : List (Position × Card)) : Position × Card :=
  es.foldl (fun m e => if cardLt trump m.2 e.2 then e else m) e0

/-- Modelled from the spec (§4.1): `get_winner()` (only valid when
full): "among the 4 played cards, the winner is the highest card by the
Card ordering … Returns the owning player's position."  On an empty
trick (never queried by the callers) we return North. -/
def Trick.getWinner (trump : Option (Fin 4)) (t : Trick) : Position :=
  match t.entries with
  | [] => Position.N
  | e :: es => (winnerEntry trump e es).1

/-- `cards.py` `Hand.get_cards_from_suite` (without the defensive
assertions, which are the subject of the invariant claims): filter the
hand to the given suit, or return the whole hand when no suit is given. -/
def getCardsFromSuite (hand : List Card) (suite : Option (Fin 4)) : List Card :=
  match suite with
  | none => hand
  | some s => hand.filter (fun c => c.suit == s)

/-- `players.py` `Player.get_legal_actions` (lines 43–56): the hand's
cards of the trick's starting suit; if there are none, the whole hand. -/
def getLegalActionsOfHand (hand : List Card) (lead : Option (Fin 4)) : List Card :=
  let legal := getCardsFromSuite hand lead
  if legal = [] then hand else legal

/-- `state.py` class `State`.  The Python object keys its per-player
dictionaries by `Player` objects, which hash and compare by position
(`players.py` lines 61–65), and keeps `players_pos : position → player`;
we therefore key everything by `Position` directly. The four players'
hands become `hands : Position → List Card`. -/
structure GameState where
  trick : Trick
  hands : Position → List Card
  cardsInHand : Nat
  prevTricks : List Trick
  tricksCounter : Position → Nat
  score : Position → Int
  bids : Position → Nat
  currPlayer : Position
  alreadyPlayed : List Card
  trump : Option (Fin 4)

/-- `state.py` `State.get_legal_actions` (lines 91–94), delegating to
`Player.get_legal_actions` of the current player. -/
def GameState.getLegalActions (s : GameState) : List Card :=
  getLegalActionsOfHand (s.hands s.currPlayer) s.trick.startingSuit

/-- `state.py` `State.apply_action` (lines 54–89): remove the card from
the current player's hand (`Hand.play_card` / `list.remove`), add it to
the trick and to `already_played` (`set.add`); when the trick becomes
full, archive it if `is_real_game`, credit the winner's trick counter
and make the winner the current player with a fresh empty trick;
otherwise pass the turn to the next seat in `PLAYERS_CYCLE`. -/
def GameState.applyAction (s : GameState) (card : Card) (isRealGame : Bool) : GameState :=
  let hand' := (s.hands s.currPlayer).erase card
  let hands' := fun p => if p = s.currPlayer then hand' else s.hands p
  let trick' := s.trick.addCard s.currPlayer card
  let played' := s.alreadyPlayed.insert card
  if trick'.size = 4 then
    let w := trick'.getWinner s.trump
    { s with
      hands := hands'
      trick := ⟨[]⟩
      prevTricks := if isRealGame then s.prevTricks ++ [trick'] else s.prevTricks
      tricksCounter := fun p => if p = w then s.tricksCounter p + 1 else s.tricksCounter p
      currPlayer := w
      alreadyPlayed := played' }
  else
    { s with
      hands := hands'
      trick := trick'
      currPlayer := nextPos s.currPlayer
      alreadyPlayed := played' }

/-- `state.py` `State.get_successor` (lines 34–52): clone every player
(and hand), the counter/score/bid dictionaries and the trick, build a
new `State` — whose constructor (line 31) resets `already_played` to
the empty set — and apply the action on the clone with
`is_real_game = False`.  Value-wise the clone equals the original
except for the reset `already_played`. -/
def GameState.getSuccessor (s : GameState) (action : Card) : GameState :=
  let successor := { s with alreadyPlayed := [] }
  successor.applyAction action false

/-- `state.py` `State.__copy__` (lines 102–114): clone the state via the
constructor (which resets `already_played`) and then explicitly restore
`already_played` from the original (`played = set(self.already_played)`). -/
def GameState.stateCopy (s : GameState) : GameState :=
  let st := { s with alreadyPlayed := [] }
  { st with alreadyPlayed := s.alreadyPlayed }

/-- `game.py` `Game.game_loop` (lines 220–227, identically
`SimulatedGame.game_loop` lines 314–321), the settlement after the last
trick, for one player: a player whose tricks-won equals their bid gains
the bid, otherwise loses `abs(tricks_won - bid)`. -/
def settleOne (score : Int) (tricksWon bid : Nat) : Int :=
  if tricksWon = bid then score + bid
  else score - |(tricksWon : Int) - (bid : Int)|

/-- End-of-deal settlement over all players (`for player in
self.players.values()`; each iteration touches only that player's own
score entry). -/
def GameState.settleScores (s : GameState) : GameState :=
  { s with score := fun p => settleOne (s.score p) (s.tricksCounter p) (s.bids p) }

/-- Rank of a card within a trick whose lead suit is `lead`: trump cards
form the top block (ordered by face), lead-suit cards the middle block
(ordered by face), and a card that is neither trump nor of the lead
suit gets rank 0 — it can never win the trick. -/
def trickRank (trump : Option (Fin 4)) (lead : Fin 4) (c : Card) : Nat :=
  if isTrump trump c then 14 + c.face.val
  else if c.suit = lead then 1 + c.face.val
  else 0

/-- States reachable from a freshly dealt game by applying legal
actions.  A fresh deal has an empty `already_played` set, an empty
current trick, duplicate-free hands (`Hand.__init__` asserts
`len(set(cards)) == len(cards)`) and pairwise-disjoint hands (each card
of the deck is dealt to exactly one player, `Deck.deal`). -/
inductive Reachable : GameState → Prop where
  | init (s : GameState)
      (hap : s.alreadyPlayed = [])
      (htr : s.trick.entries = [])
      (hnd : ∀ p, (s.hands p).Nodup)
      (hdj : ∀ p q, p ≠ q → ∀ c, c ∈ s.hands p → c ∉ s.hands q) :
      Reachable s
  | step (s : GameState) (a : Card) (b : Bool)
      (hs : Reachable s) (ha : a ∈ s.getLegalActions) :
      Reachable (s.applyAction a b)

/-- Extended reals used by `AlphaBetaAgent.get_action` for the initial
alpha/beta bounds `-np.inf` and `np.inf`. -/
abbrev EInt := WithBot (WithTop Int)

/-- `multi_agents.py` `AlphaBetaAgent.score` (lines 419–457).  At a leaf
(`curr_depth >= max_depth`) or when there are no legal moves it returns
the evaluation function's value.  Otherwise the Python body enters a
loop whose first statement evaluates the name `is_next_max`
(lines 446/454) — a name that is bound nowhere in the program — so the
call raises `NameError` before any recursion happens; we model that
exception as `none`.  The `a`/`b` bound parameters are therefore never
consulted past this point. -/
def abScore (evalFn : GameState → Bool → Int) (s : GameState)
    (maxDepth currDepth : Nat) (isMax : Bool) (a b : EInt) : Option Int :=
  if maxDepth ≤ currDepth then some (evalFn s isMax)
  else if s.getLegalActions = [] then some (evalFn s isMax)
  else
    -- loop body: `self.score(next_state, max_depth, next_depth, is_next_max, a, b)`
    -- where `is_next_max` is an unbound name: NameError.
    none

/-- The `depth > 0` loop of `multi_agents.py` `AlphaBetaAgent.get_action`
(lines 406–417): score each successor with `score(succ, depth, 1, False,
a, b)`, keep the move whose score strictly improves `a`, and stop once
`b <= a`.  A `none` from `abScore` is the propagated `NameError`. -/
def abLoop (evalFn : GameState → Bool → Int) (depth : Nat)
    (pairs : List (Card × GameState)) (chosen : Card) (a b : EInt) : Option Card :=
  match pairs with
  | [] => some chosen
  | (m, succ) :: rest =>
    match abScore evalFn succ depth 1 false a b with
    | none => none
    | some sc =>
      let a' : EInt := if a < ((sc : WithTop Int) : EInt) then ((sc : WithTop Int) : EInt) else a
      let chosen' := if a < ((sc : WithTop Int) : EInt) then m else chosen
      if b ≤ a' then some chosen'
      else abLoop evalFn depth rest chosen' a' b

/-- `multi_agents.py` `AlphaBetaAgent.get_action` (lines 393–417) for a
configured depth `> 0` (the `depth == 0` branch breaks ties with
`np.random.choice` and is outside this claim): build the successor of
every legal move, then run the alpha-beta loop with `a = -inf`,
`b = +inf` and `chosen_index = 0`.  An empty legal-move list would make
`legal_moves[chosen_index]` fail, modelled as `none`. -/
def getActionAB (evalFn : GameState → Bool → Int) (s : GameState)
    (depth : Nat) : Option Card :=
  match s.getLegalActions with
  | [] => none
  | m0 :: rest =>
    abLoop evalFn depth
      (((m0 :: rest).map (fun a => (a, s.getSuccessor a))))
      m0 ⊥ ((⊤ : WithTop Int) : EInt)

/-- `multi_agents.py` `SimpleMCTSAgent.rollout`, final aggregation loop
(lines 640–642): starting from `best_action` (which line 610 draws at
random from the legal actions), replace it by any action whose
accumulated value is strictly greater. -/
def selectBest (value : Card → Int) (legal : List Card) (best : Card) : Card :=
  legal.foldl (fun b a => if value b < value a then a else b) best

/-- A mutable object of the Python heap that `State.get_successor`
clones: a hand (`Hand.cards` list), a trick (its player → card entries)
or the tricks-won counter dictionary (four counts in seat order). -/
inductive Cell where
  | hcell : List Card → Cell
  | tcell : List (Position × Card) → Cell
  | ccell : List Nat → Cell
deriving DecidableEq, Repr

/-- The heap of mutable objects; references are list indices. -/
abbrev Heap := List Cell

/-- Read a hand object; a dangling or ill-typed reference reads as empty
(never happens on well-formed states). -/
def readHand (h : Heap) (i : Nat) : List Card :=
  match h[i]? with
  | some (Cell.hcell cs) => cs
  | _ => []

/-- Read a trick object. -/
def readTrick (h : Heap) (i : Nat) : List (Position × Card) :=
  match h[i]? with
  | some (Cell.tcell es) => es
  | _ => []

/-- Read the tricks-won counter dictionary. -/
def readCnt (h : Heap) (i : Nat) : List Nat :=
  match h[i]? with
  | some (Cell.ccell ns) => ns
  | _ => []

/-- Reference-level view of `state.py` `State`: the state object holds
references to its four players' hand objects, its trick object and its
counter dictionary; `curr_player` (a position) and `already_played`
(a fresh set per state object, never shared between a state and its
successors) stay value fields. -/
structure StateR where
  handRef : Position → Nat
  trickRef : Nat
  cntRef : Nat
  currPlayer : Position
  alreadyPlayed : List Card
  trump : Option (Fin 4)

/-- `State.get_legal_actions` read through the heap. -/
def getLegalActionsR (h : Heap) (s : StateR) : List Card :=
  getLegalActionsOfHand (readHand h (s.handRef s.currPlayer))
    ((readTrick h s.trickRef).head?.map (fun e => e.2.suit))

/-- `state.py` `State.apply_action` with `is_real_game = False` (the
mode `get_successor` uses), acting on the heap: the current player's
hand object, the trick object and — on a completed trick — the counter
dictionary are updated in place through the state's references. -/
def applyActionR (h : Heap) (s : StateR) (card : Card) : Heap × StateR :=
  let hand := readHand h (s.handRef s.currPlayer)
  let h1 := h.set (s.handRef s.currPlayer) (Cell.hcell (hand.erase card))
  let tr := readTrick h1 s.trickRef ++ [(s.currPlayer, card)]
  let played' := s.alreadyPlayed.insert card
  if tr.length = 4 then
    let w := Trick.getWinner s.trump ⟨tr⟩
    let cnts := readCnt h1 s.cntRef
    let h2 := h1.set s.cntRef (Cell.ccell (cnts.set (posIdx w) (cnts.getD (posIdx w) 0 + 1)))
    let h3 := h2.set s.trickRef (Cell.tcell [])
    (h3, { s with currPlayer := w, alreadyPlayed := played' })
  else
    let h2 := h1.set s.trickRef (Cell.tcell tr)
    (h2, { s with currPlayer := nextPos s.currPlayer, alreadyPlayed := played' })

/-- `state.py` `State.get_successor` (lines 34–52) at the reference
level: allocate fresh copies of the four hand objects (`copy(player)` →
`Hand.__copy__`), of the trick (`create_from_other_players`, a new
trick object holding the same entries) and of the counter dictionary
(a new dict with the same values); the new `State` starts with an empty
`already_played` (constructor, line 31); then apply the action on the
clone. -/
def getSuccessorR (h : Heap) (s : StateR) (action : Card) : Heap × StateR :=
  let n := h.length
  let h1 := h ++
    [Cell.hcell (readHand h (s.handRef Position.N)),
     Cell.hcell (readHand h (s.handRef Position.E)),
     Cell.hcell (readHand h (s.handRef Position.S)),
     Cell.hcell (readHand h (s.handRef Position.W)),
     Cell.tcell (readTrick h s.trickRef),
     Cell.ccell (readCnt h s.cntRef)]
  let s' : StateR :=
    { handRef := fun p => n + posIdx p
      trickRef := n + 4
      cntRef := n + 5
      currPlayer := s.currPlayer
      alreadyPlayed := []
      trump := s.trump }
  applyActionR h1 s' action

/-- Apply a whole sequence of actions (a search agent exploring the
clone) to a heap/state pair. -/
def applySeqR (hs : Heap × StateR) (acts : List Card) : Heap × StateR :=
  acts.foldl (fun hs a => applyActionR hs.1 hs.2 a) hs

/-- A freshly dealt 1-card-per-hand game: North ♠2, East ♥2, South ♦2,
West ♣2, North to lead, no trump. -/
def sampleFresh : GameState :=
  { trick := ⟨[]⟩
    hands := fun p =>
      match p with
      | Position.N => [⟨0, 0⟩]
      | Position.E => [⟨0, 1⟩]
      | Position.S => [⟨0, 2⟩]
      | Position.W => [⟨0, 3⟩]
    cardsInHand := 1
    prevTricks := []
    tricksCounter := fun _ => 0
    score := fun _ => 0
    bids := fun _ => 1
    currPlayer := Position.N
    alreadyPlayed := []
    trump := none }

/-- A mid-trick state: North led the ♠5, East to play holding ♠K and ♥2. -/
def sampleMid : GameState :=
  { trick := ⟨[(Position.N, ⟨3, 0⟩)]⟩
    hands := fun p =>
      match p with
      | Position.N => []
      | Position.E => [⟨11, 0⟩, ⟨0, 1⟩]
      | Position.S => [⟨1, 2⟩]
      | Position.W => [⟨1, 3⟩]
    cardsInHand := 2
    prevTricks := []
    tricksCounter := fun _ => 0
    score := fun _ => 0
    bids := fun _ => 1
    currPlayer := Position.E
    alreadyPlayed := [⟨3, 0⟩]
    trump := none }

/-- A concrete heap of six objects: four singleton hands, an empty
trick, the counter dictionary. -/
def sampleHeap : Heap :=
  [Cell.hcell [⟨0, 0⟩], Cell.hcell [⟨0, 1⟩], Cell.hcell [⟨0, 2⟩],
   Cell.hcell [⟨0, 3⟩], Cell.tcell [], Cell.ccell [0, 0, 0, 0]]

/-- The reference-level state owning the six objects of `sampleHeap`. -/
def sampleStateR : StateR :=
  { handRef := posIdx
    trickRef := 4
    cntRef := 5
    currPlayer := Position.N
    alreadyPlayed := []
    trump := none }

/-- A finished deal: North bid 3 and won 3 tricks, the others bid 3 and
won 5. -/
def sampleScored : GameState :=
  { sampleFresh with
    tricksCounter := fun p => if p = Position.N then 3 else 5
    bids := fun _ => 3
    score := fun _ => 0 }

/-- C5: a trump-flagged card is strictly greater than any card without
the flag, whatever the two faces: `a < b` holds and `b < a` does not
(`cards.py` lines 194–198). -/
theorem trump_beats_nontrump (trump : Option (Fin 4)) (a b : Card)
    (ha : isTrump trump a = false) (hb : isTrump trump b = true) :
    cardLt trump a b = true ∧ cardLt trump b a = false := by
  simp [cardLt, ha, hb]

/-- Witness for C5: the non-trump ♥A is below the trump ♠2 when spades
are trump. -/
theorem trump_beats_nontrump_witness :
    isTrump (some 0) (Card.mk 12 1) = false
    ∧ isTrump (some 0) (Card.mk 0 0) = true
    ∧ cardLt (some 0) (Card.mk 12 1) (Card.mk 0 0) = true
    ∧ cardLt (some 0) (Card.mk 0 0) (Card.mk 12 1) = false := by
  refine ⟨by decide, by decide, ?_⟩
  exact trump_beats_nontrump (some 0) (Card.mk 12 1) (Card.mk 0 0)
    (by decide) (by decide)

/-- C6 counterexample: the Card comparison is not a strict total order
on distinct cards with equal trump flag — for the two non-trump cards
♠2 and ♥2 neither `a < b` nor `b < a` holds, because the cross-suit
branch of `Card.__lt__` compares a suit's index against itself
(`cards.py` lines 203–205). -/
theorem cardLt_not_total : Card.mk 0 0 ≠ Card.mk 0 1
    ∧ isTrump none (Card.mk 0 0) = isTrump none (Card.mk 0 1)
    ∧ cardLt none (Card.mk 0 0) (Card.mk 0 1) = false
    ∧ cardLt none (Card.mk 0 1) (Card.mk 0 0) = false := by
  decide

/-- C6 amended: for two distinct cards with different trump flags, or
with the same suit, exactly one of `a < b`, `b < a` holds; but two
non-trump cards of different suits are incomparable (both directions
false), so the comparison is not total. -/
theorem cardLt_partial_trichotomy (trump : Option (Fin 4)) (a b : Card)
    (hne : a ≠ b) :
    (a.suit = b.suit → (cardLt trump a b = true ↔ cardLt trump b a = false))
    ∧ (isTrump trump a ≠ isTrump trump b →
        (cardLt trump a b = true ↔ cardLt trump b a = false))
    ∧ (a.suit ≠ b.suit → isTrump trump a = false → isTrump trump b = false →
        cardLt trump a b = false ∧ cardLt trump b a = false) := by
  refine ⟨?_, ?_, ?_⟩
  · intro hsuit
    have hface : a.face ≠ b.face := by
      intro hf; exact hne (by cases a; cases b; simp_all)
    have htr : isTrump trump a = isTrump trump b := by
      simp [isTrump, hsuit]
    rcases h : isTrump trump a with _ | _ <;>
      simp [cardLt, h, htr ▸ h, hsuit, beq_iff_eq] <;>
      · constructor
        · exact le_of_lt
        · intro h2; exact lt_of_le_of_ne h2 hface
  · intro hflag
    rcases ha : isTrump trump a with _ | _ <;> rcases hb : isTrump trump b with _ | _ <;>
      simp_all [cardLt]
  · intro hsuit ha hb
    have hsuit' : ¬(b.suit = a.suit) := fun h => hsuit h.symm
    simp [cardLt, ha, hb, hsuit, hsuit', beq_iff_eq]

/-- Witness for the amended C6: ♠3 and ♠2 (same suit) compare in
exactly one direction; trump ♠2 against non-trump ♥A compares in
exactly one direction; ♠2 and ♥2 (different non-trump suits) are
incomparable. -/
theorem cardLt_partial_trichotomy_witness :
    ((Card.mk 1 0).suit = (Card.mk 0 0).suit →
      (cardLt none (Card.mk 1 0) (Card.mk 0 0) = true
        ↔ cardLt none (Card.mk 0 0) (Card.mk 1 0) = false))
    ∧ ((Card.mk 0 0).suit ≠ (Card.mk 0 1).suit →
        isTrump none (Card.mk 0 0) = false → isTrump none (Card.mk 0 1) = false →
        cardLt none (Card.mk 0 0) (Card.mk 0 1) = false
        ∧ cardLt none (Card.mk 0 1) (Card.mk 0 0) = false) := by
  exact ⟨(cardLt_partial_trichotomy none (Card.mk 1 0) (Card.mk 0 0) (by decide)).1,
    (cardLt_partial_trichotomy none (Card.mk 0 0) (Card.mk 0 1) (by decide)).2.2⟩

/-- A card has positive trick rank exactly when it is trump or of the
lead suit. -/
theorem trickRank_pos (trump : Option (Fin 4)) (lead : Fin 4) (c : Card) :
    1 ≤ trickRank trump lead c ↔ (isTrump trump c = true ∨ c.suit = lead) := by
  unfold trickRank
  by_cases h1 : isTrump trump c = true
  · simp [h1]
    omega
  · simp [h1]
    by_cases h2 : c.suit = lead <;> simp [h2]


/-- Two trump cards have the same suit (the trump suit). -/
theorem isTrump_suit_eq (trump : Option (Fin 4)) {a b : Card}
    (ha : isTrump trump a = true) (hb : isTrump trump b = true) :
    a.suit = b.suit := by
  simp only [isTrump, beq_iff_eq] at ha hb
  rw [ha] at hb
  exact Option.some_inj.mp hb

/-- On a card that can still win the trick (positive rank), the Card
comparison agrees with the trick rank: `m < e` holds iff `e` ranks
strictly higher.  This is where the never-taken cross-suit branch of
`Card.__lt__` is harmless: a positive-rank `m` and an off-suit
non-trump `e` land in that branch, which returns `False`, matching
`rank e = 0 < rank m`. -/
theorem cardLt_iff_rank (trump : Option (Fin 4)) (lead : Fin 4) (m e : Card)
    (hm : 1 ≤ trickRank trump lead m) :
    (cardLt trump m e = true ↔ trickRank trump lead m < trickRank trump lead e) := by
  have hf1 := m.face.isLt
  have hf2 := e.face.isLt
  by_cases hTm : isTrump trump m = true <;> by_cases hTe : isTrump trump e = true
  · have hs : m.suit = e.suit := isTrump_suit_eq trump hTm hTe
    simp only [cardLt, trickRank, hTm, hTe, hs, Bool.not_true, Bool.and_false,
      Bool.false_and, if_false, beq_self_eq_true, if_true, decide_eq_true_eq,
      Fin.lt_def, Bool.false_eq_true]
    omega
  · simp only [cardLt, hTm, hTe, trickRank]
    by_cases h2 : e.suit = lead <;> simp [h2, hTm, hTe] <;> omega
  · have hml : m.suit = lead :=
      ((trickRank_pos trump lead m).1 hm).resolve_left hTm
    simp [cardLt, hTm, hTe, trickRank, hml]
    omega
  · have hml : m.suit = lead :=
      ((trickRank_pos trump lead m).1 hm).resolve_left hTm
    have hTm' : isTrump trump m = false := by
      revert hTm; cases isTrump trump m <;> simp
    have hTe' : isTrump trump e = false := by
      revert hTe; cases isTrump trump e <;> simp
    by_cases hs : m.suit = e.suit
    · have hel : e.suit = lead := hs ▸ hml
      simp only [cardLt, trickRank, hTm', hTe', hml, hel, hs, Bool.not_false,
        Bool.and_false, Bool.false_and, Bool.and_true, if_false, beq_self_eq_true,
        if_true, decide_eq_true_eq, Fin.lt_def, Bool.false_eq_true]
      omega
    · have hel : ¬e.suit = lead := fun h => hs (hml.trans h.symm)
      have hel' : ¬lead = e.suit := fun h => hel h.symm
      simp [cardLt, hTm, hTe, hs, trickRank, hml, hel, hel']

/-- Cards of positive equal trick rank are equal (within one trump
context the rank determines trump flag, suit and face). -/
theorem trickRank_inj (trump : Option (Fin 4)) (lead : Fin 4) (c d : Card)
    (hc : 1 ≤ trickRank trump lead c)
    (heq : trickRank trump lead c = trickRank trump lead d) : c = d := by
  have hfc := c.face.isLt
  have hfd := d.face.isLt
  by_cases hTc : isTrump trump c = true <;> by_cases hTd : isTrump trump d = true
  · have hs : c.suit = d.suit := isTrump_suit_eq trump hTc hTd
    simp only [trickRank, hTc, hTd, if_true] at heq
    have hf : c.face = d.face := Fin.ext (by omega)
    cases c; cases d; simp_all
  · exfalso
    simp only [trickRank, hTc, hTd] at heq
    by_cases h2 : d.suit = lead <;> simp [h2] at heq <;> omega
  · exfalso
    simp only [trickRank, hTc, hTd] at heq
    by_cases h2 : c.suit = lead <;> simp [h2] at heq <;> omega
  · have hcl : c.suit = lead :=
      ((trickRank_pos trump lead c).1 hc).resolve_left hTc
    simp only [trickRank, hTc, hTd, hcl, if_true, Bool.false_eq_true,
      if_false] at heq
    by_cases h2 : d.suit = lead
    · simp only [h2, if_true] at heq
      have hf : c.face = d.face := Fin.ext (by omega)
      cases c; cases d; simp_all
    · simp [h2] at heq

/-- Invariant of the Python `max` fold computing the trick winner:
starting from an entry of positive rank, the result is one of the
entries, has positive rank, and dominates the start entry and every
folded entry in trick rank. -/
theorem winnerEntry_spec (trump : Option (Fin 4)) (lead : Fin 4) :
    ∀ (es : List (Position × Card)) (e0 : Position × Card),
    1 ≤ trickRank trump lead e0.2 →
    (winnerEntry trump e0 es = e0 ∨ winnerEntry trump e0 es ∈ es)
    ∧ 1 ≤ trickRank trump lead (winnerEntry trump e0 es).2
    ∧ trickRank trump lead e0.2 ≤ trickRank trump lead (winnerEntry trump e0 es).2
    ∧ ∀ e ∈ es, trickRank trump lead e.2 ≤ trickRank trump lead (winnerEntry trump e0 es).2 := by
  intro es
  induction es with
  | nil =>
    intro e0 h0
    refine ⟨Or.inl rfl, h0, le_refl _, by simp⟩
  | cons e rest ih =>
    intro e0 h0
    by_cases hlt : cardLt trump e0.2 e.2 = true
    · have hrank : trickRank trump lead e0.2 < trickRank trump lead e.2 :=
        (cardLt_iff_rank trump lead e0.2 e.2 h0).1 hlt
      have h1 : 1 ≤ trickRank trump lead e.2 := le_trans h0 (le_of_lt hrank)
      obtain ⟨hmem, hpos, hge, hall⟩ := ih e h1
      have hw : winnerEntry trump e0 (e :: rest) = winnerEntry trump e rest := by
        simp [winnerEntry, hlt]
      rw [hw]
      refine ⟨?_, hpos, le_trans (le_of_lt hrank) hge, ?_⟩
      · rcases hmem with h | h
        · exact Or.inr (by rw [h]; exact List.mem_cons_self _ _)
        · exact Or.inr (List.mem_cons_of_mem _ h)
      · intro x hx
        rcases List.mem_cons.mp hx with rfl | h
        · exact hge
        · exact hall _ h
    · have hw : winnerEntry trump e0 (e :: rest) = winnerEntry trump e0 rest := by
        simp [winnerEntry, hlt]
      have hle : trickRank trump lead e.2 ≤ trickRank trump lead e0.2 := by
        have hn : ¬trickRank trump lead e0.2 < trickRank trump lead e.2 :=
          fun h => hlt ((cardLt_iff_rank trump lead e0.2 e.2 h0).2 h)
        omega
      obtain ⟨hmem, hpos, hge, hall⟩ := ih e0 h0
      rw [hw]
      refine ⟨?_, hpos, hge, ?_⟩
      · rcases hmem with h | h
        · exact Or.inl h
        · exact Or.inr (List.mem_cons_of_mem _ h)
      · intro x hx
        rcases List.mem_cons.mp hx with rfl | h
        · exact le_trans hle hge
        · exact hall _ h

/-- C1: on a full trick (4 cards, one per player), `get_winner` returns
the position of the entry whose card is the highest of the four under
the Card ordering: that entry's card is trump or of the starting suit
(a card that is neither never wins), and it strictly out-ranks every
other card of the trick — trump above non-trump, then face rank within
the starting suit. -/
theorem trick_get_winner_correct (trump : Option (Fin 4))
    (p0 p1 p2 p3 : Position) (c0 c1 c2 c3 : Card)
    (hp01 : p0 ≠ p1) (hp02 : p0 ≠ p2) (hp03 : p0 ≠ p3)
    (hp12 : p1 ≠ p2) (hp13 : p1 ≠ p3) (hp23 : p2 ≠ p3) :
    ∃ e ∈ (Trick.mk [(p0, c0), (p1, c1), (p2, c2), (p3, c3)]).entries,
      Trick.getWinner trump (Trick.mk [(p0, c0), (p1, c1), (p2, c2), (p3, c3)]) = e.1
      ∧ (isTrump trump e.2 = true ∨ e.2.suit = c0.suit)
      ∧ (∀ e' ∈ (Trick.mk [(p0, c0), (p1, c1), (p2, c2), (p3, c3)]).entries,
          e'.2 ≠ e.2 →
          trickRank trump c0.suit e'.2 < trickRank trump c0.suit e.2)
      ∧ (∀ e' ∈ (Trick.mk [(p0, c0), (p1, c1), (p2, c2), (p3, c3)]).entries,
          e'.1 = e.1 → e' = e) := by
  have h0 : 1 ≤ trickRank trump c0.suit ((p0, c0) : Position × Card).2 := by
    refine (trickRank_pos trump c0.suit c0).2 ?_
    by_cases h : isTrump trump c0 = true
    · exact Or.inl h
    · exact Or.inr rfl
  obtain ⟨hmem, hpos, hge, hall⟩ :=
    winnerEntry_spec trump c0.suit [(p1, c1), (p2, c2), (p3, c3)] (p0, c0) h0
  have hwmem : winnerEntry trump (p0, c0) [(p1, c1), (p2, c2), (p3, c3)]
      ∈ [(p0, c0), (p1, c1), (p2, c2), (p3, c3)] := by
    rcases hmem with h | h
    · rw [h]; exact List.mem_cons_self _ _
    · exact List.mem_cons_of_mem _ h
  have huniq : ∀ x ∈ [(p0, c0), (p1, c1), (p2, c2), (p3, c3)],
      ∀ y ∈ [(p0, c0), (p1, c1), (p2, c2), (p3, c3)], x.1 = y.1 → x = y := by
    intro x hx y hy hxy
    simp only [List.mem_cons, List.not_mem_nil, or_false] at hx hy
    rcases hx with rfl | rfl | rfl | rfl <;> rcases hy with rfl | rfl | rfl | rfl <;>
      simp_all
  refine ⟨winnerEntry trump (p0, c0) [(p1, c1), (p2, c2), (p3, c3)], hwmem, rfl,
    (trickRank_pos trump c0.suit _).1 hpos, ?_, ?_⟩
  · intro e' he' hne
    have hle : trickRank trump c0.suit e'.2
        ≤ trickRank trump c0.suit
          (winnerEntry trump (p0, c0) [(p1, c1), (p2, c2), (p3, c3)]).2 := by
      rcases List.mem_cons.mp he' with rfl | h
      · exact hge
      · exact hall _ h
    rcases Nat.lt_or_ge (trickRank trump c0.suit e'.2)
        (trickRank trump c0.suit
          (winnerEntry trump (p0, c0) [(p1, c1), (p2, c2), (p3, c3)]).2) with h | h
    · exact h
    · exfalso
      have heq : trickRank trump c0.suit e'.2
          = trickRank trump c0.suit
            (winnerEntry trump (p0, c0) [(p1, c1), (p2, c2), (p3, c3)]).2 := by omega
      have h1 : 1 ≤ trickRank trump c0.suit e'.2 := by omega
      exact hne (trickRank_inj trump c0.suit _ _ h1 heq)
  · intro e' he' hpe
    exact huniq e' he' _ hwmem hpe

/-- Witness for C1: no trump, North leads ♠5, East plays ♠K, South ♥A,
West ♠2 — the trick's winner entry exists as the theorem states (it is
East with the ♠K: the off-suit ♥A cannot win). -/
theorem trick_get_winner_witness :
    ∃ e ∈ (Trick.mk [(Position.N, Card.mk 3 0), (Position.E, Card.mk 11 0),
        (Position.S, Card.mk 12 1), (Position.W, Card.mk 0 0)]).entries,
      Trick.getWinner none (Trick.mk [(Position.N, Card.mk 3 0), (Position.E, Card.mk 11 0),
        (Position.S, Card.mk 12 1), (Position.W, Card.mk 0 0)]) = e.1
      ∧ (isTrump none e.2 = true ∨ e.2.suit = (Card.mk 3 0).suit)
      ∧ (∀ e' ∈ (Trick.mk [(Position.N, Card.mk 3 0), (Position.E, Card.mk 11 0),
            (Position.S, Card.mk 12 1), (Position.W, Card.mk 0 0)]).entries,
          e'.2 ≠ e.2 →
          trickRank none (Card.mk 3 0).suit e'.2 < trickRank none (Card.mk 3 0).suit e.2)
      ∧ (∀ e' ∈ (Trick.mk [(Position.N, Card.mk 3 0), (Position.E, Card.mk 11 0),
            (Position.S, Card.mk 12 1), (Position.W, Card.mk 0 0)]).entries,
          e'.1 = e.1 → e' = e) :=
  trick_get_winner_correct none Position.N Position.E Position.S Position.W
    (Card.mk 3 0) (Card.mk 11 0) (Card.mk 12 1) (Card.mk 0 0)
    (by decide) (by decide) (by decide) (by decide) (by decide) (by decide)

/-- The hands after `apply_action`: the card is erased from the current
player's hand, every other hand is untouched (both branches of
`apply_action` share this update). -/
theorem applyAction_hands (s : GameState) (a : Card) (b : Bool) :
    (s.applyAction a b).hands
      = fun p => if p = s.currPlayer then (s.hands s.currPlayer).erase a
                 else s.hands p := by
  unfold GameState.applyAction
  dsimp only
  split <;> rfl

/-- `apply_action` adds the played card to `already_played` (both
branches). -/
theorem applyAction_alreadyPlayed (s : GameState) (a : Card) (b : Bool) :
    (s.applyAction a b).alreadyPlayed = s.alreadyPlayed.insert a := by
  unfold GameState.applyAction
  dsimp only
  split <;> rfl

/-- Legal actions are always cards of the to-play player's hand. -/
theorem legal_subset_hand (s : GameState) :
    ∀ c ∈ s.getLegalActions, c ∈ s.hands s.currPlayer := by
  intro c hc
  unfold GameState.getLegalActions getLegalActionsOfHand at hc
  dsimp only at hc
  split at hc
  · exact hc
  · rcases hsu : s.trick.startingSuit with _ | su <;> rw [hsu] at hc <;>
      simp only [getCardsFromSuite] at hc
    · exact hc
    · exact (List.mem_filter.1 hc).1

/-- State invariant along any legal play sequence: hands stay
duplicate-free and pairwise disjoint, and no already-played card is in
any hand. -/
theorem reachable_invariant (s : GameState) (h : Reachable s) :
    (∀ p, (s.hands p).Nodup)
    ∧ (∀ p q, p ≠ q → ∀ c, c ∈ s.hands p → c ∉ s.hands q)
    ∧ (∀ c ∈ s.alreadyPlayed, ∀ p, c ∉ s.hands p) := by
  induction h with
  | init s hap htr hnd hdj =>
    refine ⟨hnd, hdj, ?_⟩
    rw [hap]
    intro c hc
    exact absurd hc (List.not_mem_nil c)
  | step s a b hs ha ih =>
    obtain ⟨ihnd, ihdj, ihap⟩ := ih
    have hah : a ∈ s.hands s.currPlayer := legal_subset_hand s a ha
    have hsub : ∀ r x,
        x ∈ (if r = s.currPlayer then (s.hands s.currPlayer).erase a
             else s.hands r) → x ∈ s.hands r := by
      intro r x hx
      split at hx
      · rename_i hr; rw [hr]; exact List.mem_of_mem_erase hx
      · exact hx
    refine ⟨?_, ?_, ?_⟩
    · intro p
      rw [applyAction_hands s a b]
      dsimp only
      split
      · exact List.Nodup.erase a (ihnd s.currPlayer)
      · exact ihnd p
    · intro p q hpq c hcp hcq
      rw [applyAction_hands s a b] at hcp hcq
      dsimp only at hcp hcq
      exact ihdj p q hpq c (hsub p c hcp) (hsub q c hcq)
    · intro c hc p
      rw [applyAction_alreadyPlayed s a b] at hc
      rw [applyAction_hands s a b]
      dsimp only
      rcases List.mem_insert_iff.1 hc with rfl | hcold
      · split
        · intro hmem
          exact ((List.Nodup.mem_erase_iff (ihnd s.currPlayer)).1 hmem).1 rfl
        · rename_i hp
          exact ihdj s.currPlayer p (fun h => hp h.symm) c hah
      · intro hmem
        exact (ihap c hcold p) (hsub p c hmem)

/-- C3: in every state reachable from a fresh deal by legal actions,
the `already_played` set is disjoint from every player's remaining hand
and from the legal-action list. -/
theorem already_played_disjoint (s : GameState) (h : Reachable s) :
    (∀ c ∈ s.alreadyPlayed, ∀ p, c ∉ s.hands p)
    ∧ (∀ c ∈ s.getLegalActions, c ∉ s.alreadyPlayed) := by
  obtain ⟨hnd, hdj, hap⟩ := reachable_invariant s h
  refine ⟨hap, ?_⟩
  intro c hc hcp
  exact (hap c hcp s.currPlayer) (legal_subset_hand s c hc)

/-- Witness for C3 on the concrete fresh deal `sampleFresh`. -/
theorem already_played_disjoint_witness :
    (Card.mk 0 0) ∈ sampleFresh.getLegalActions
    ∧ (Card.mk 0 0) ∉ sampleFresh.alreadyPlayed :=
  ⟨by decide,
    (already_played_disjoint sampleFresh
      (Reachable.init sampleFresh rfl rfl (by decide) (by decide))).2
      (Card.mk 0 0) (by decide)⟩

/-- C2: `get_legal_actions` returns exactly the to-play player's cards
of the trick's starting suit when the player holds one; with no card
led yet, or with no card of the lead suit in hand, it returns the whole
remaining hand. -/
theorem get_legal_actions_follow_suit (s : GameState) :
    (∀ su : Fin 4, s.trick.startingSuit = some su →
      (∃ c ∈ s.hands s.currPlayer, c.suit = su) →
      ∀ c : Card, c ∈ s.getLegalActions
        ↔ (c ∈ s.hands s.currPlayer ∧ c.suit = su))
    ∧ (s.trick.startingSuit = none →
        s.getLegalActions = s.hands s.currPlayer)
    ∧ (∀ su : Fin 4, s.trick.startingSuit = some su →
        (∀ c ∈ s.hands s.currPlayer, c.suit ≠ su) →
        s.getLegalActions = s.hands s.currPlayer) := by
  refine ⟨?_, ?_, ?_⟩
  · rintro su hsu ⟨c0, hc0, hc0s⟩ c
    unfold GameState.getLegalActions getLegalActionsOfHand
    rw [hsu]
    simp only [getCardsFromSuite]
    have hne : (s.hands s.currPlayer).filter (fun c => c.suit == su) ≠ [] := by
      intro hnil
      have hmem : c0 ∈ (s.hands s.currPlayer).filter (fun c => c.suit == su) :=
        List.mem_filter.2 ⟨hc0, by simp [hc0s]⟩
      rw [hnil] at hmem
      exact absurd hmem (List.not_mem_nil c0)
    simp only [hne, if_false, List.mem_filter, beq_iff_eq]
  · intro hn
    unfold GameState.getLegalActions getLegalActionsOfHand
    rw [hn]
    simp only [getCardsFromSuite, ite_self]
  · intro su hsu hnone
    unfold GameState.getLegalActions getLegalActionsOfHand
    rw [hsu]
    simp only [getCardsFromSuite]
    have hnil : (s.hands s.currPlayer).filter (fun c => c.suit == su) = [] := by
      rw [List.filter_eq_nil]
      intro c hc
      simp [hnone c hc]
    simp [hnil]

/-- Witness for C2 on `sampleMid`: spades were led, East holds the ♠K,
so the ♠K is legal and the off-suit ♥2 is characterised out. -/
theorem get_legal_actions_follow_suit_witness :
    sampleMid.trick.startingSuit = some 0
    ∧ (Card.mk 11 0 ∈ sampleMid.hands sampleMid.currPlayer
        ∧ (Card.mk 11 0).suit = 0)
    ∧ (Card.mk 11 0 ∈ sampleMid.getLegalActions
        ↔ (Card.mk 11 0 ∈ sampleMid.hands sampleMid.currPlayer
            ∧ (Card.mk 11 0).suit = 0)) :=
  ⟨by decide, ⟨by decide, by decide⟩,
    (get_legal_actions_follow_suit sampleMid).1 0 (by decide)
      ⟨Card.mk 11 0, by decide, by decide⟩ (Card.mk 11 0)⟩

/-- C9: at the end of a deal each player whose tricks-won count equals
their bid gains exactly the bid; every other player loses exactly the
absolute difference between tricks won and bid. -/
theorem settle_scores_correct (s : GameState) (p : Position) :
    (s.tricksCounter p = s.bids p →
      s.settleScores.score p = s.score p + s.bids p)
    ∧ (s.tricksCounter p ≠ s.bids p →
      s.settleScores.score p
        = s.score p - |(s.tricksCounter p : Int) - (s.bids p : Int)|) := by
  unfold GameState.settleScores settleOne
  constructor
  · intro h
    simp [h]
  · intro h
    simp [h]


/-- Witness for C9, the spec's own scenario: bid 3 with 3 tricks won
scores +3, bid 3 with 5 tricks won scores −2. -/
theorem settle_scores_witness :
    sampleScored.settleScores.score Position.N = 3
    ∧ sampleScored.settleScores.score Position.E = -2 := by
  constructor
  · rw [(settle_scores_correct sampleScored Position.N).1 (by decide)]
    decide
  · rw [(settle_scores_correct sampleScored Position.E).2 (by decide)]
    decide

/-- C10: the successor built by `get_successor` has `already_played`
equal to exactly the singleton of the action just applied — the `State`
constructor resets the set and `get_successor`, unlike `State.__copy__`
(which restores the original's set), never copies the history over. -/
theorem successor_already_played (s : GameState) (a : Card)
    (ha : a ∈ s.getLegalActions) :
    (s.getSuccessor a).alreadyPlayed = [a]
    ∧ s.stateCopy.alreadyPlayed = s.alreadyPlayed := by
  refine ⟨?_, rfl⟩
  unfold GameState.getSuccessor
  dsimp only
  rw [applyAction_alreadyPlayed]
  rfl

/-- Witness for C10 on `sampleFresh`. -/
theorem successor_already_played_witness :
    (Card.mk 0 0) ∈ sampleFresh.getLegalActions
    ∧ ((sampleFresh.getSuccessor (Card.mk 0 0)).alreadyPlayed = [Card.mk 0 0]
        ∧ sampleFresh.stateCopy.alreadyPlayed = sampleFresh.alreadyPlayed) :=
  ⟨by decide, successor_already_played sampleFresh (Card.mk 0 0) (by decide)⟩

/-- C7 (documents the code bug): the alpha-beta agent at its default
configured depth 2 does not complete the recursive score computation.
On the concrete one-card-per-hand state `sampleFresh` the very first
recursive call `score(successor, 2, 1, False, a, b)` reaches the branch
`curr_depth < max_depth` with legal moves available, whose loop body
reads the unbound name `is_next_max` (`multi_agents.py` lines 446/454)
— a `NameError` — so `get_action` returns no card at all (here:
`none`), whatever evaluation function is configured. -/
theorem ab_get_action_raises :
    getActionAB (fun _ _ => 0) sampleFresh 2 = none := by
  decide

/-- `selectBest` over `a :: rest` first folds the head into the
running best. -/
theorem selectBest_cons (v : Card → Int) (a : Card) (rest : List Card) (r : Card) :
    selectBest v (a :: rest) r = selectBest v rest (if v r < v a then a else r) := rfl

/-- The aggregation loop returns either its initial candidate or a
legal action. -/
theorem selectBest_mem (v : Card → Int) :
    ∀ (legal : List Card) (r : Card),
    selectBest v legal r = r ∨ selectBest v legal r ∈ legal := by
  intro legal
  induction legal with
  | nil => intro r; exact Or.inl rfl
  | cons a rest ih =>
    intro r
    rw [selectBest_cons]
    rcases ih (if v r < v a then a else r) with h | h
    · rw [h]
      split
      · exact Or.inr (List.mem_cons_self _ _)
      · exact Or.inl rfl
    · exact Or.inr (List.mem_cons_of_mem _ h)

/-- The aggregation loop's result attains the maximum accumulated value
among the initial candidate and all legal actions. -/
theorem selectBest_ge (v : Card → Int) :
    ∀ (legal : List Card) (r : Card),
    v r ≤ v (selectBest v legal r)
    ∧ ∀ c ∈ legal, v c ≤ v (selectBest v legal r) := by
  intro legal
  induction legal with
  | nil => intro r; exact ⟨le_refl _, by simp⟩
  | cons a rest ih =>
    intro r
    rw [selectBest_cons]
    obtain ⟨h1, h2⟩ := ih (if v r < v a then a else r)
    have hb : v r ≤ v (if v r < v a then a else r) := by
      split
      · rename_i h; exact le_of_lt h
      · exact le_refl _
    have ha : v a ≤ v (if v r < v a then a else r) := by
      split
      · exact le_refl _
      · rename_i h; exact le_of_not_lt h
    refine ⟨le_trans hb h1, ?_⟩
    intro c hc
    rcases List.mem_cons.mp hc with rfl | h
    · exact le_trans ha h1
    · exact h2 c h

/-- When no legal action strictly beats the initial candidate's value,
the loop keeps the initial (randomly drawn) candidate. -/
theorem selectBest_stay (v : Card → Int) :
    ∀ (legal : List Card) (r : Card), (∀ c ∈ legal, v c ≤ v r) →
    selectBest v legal r = r := by
  intro legal
  induction legal with
  | nil => intro r _; rfl
  | cons a rest ih =>
    intro r h
    have hna : ¬v r < v a := not_lt.2 (h a (List.mem_cons_self _ _))
    rw [selectBest_cons, if_neg hna]
    exact ih r (fun c hc => h c (List.mem_cons_of_mem _ hc))

/-- When one legal action's value strictly dominates every other legal
action and the initial candidate, the loop returns it — the choice is
determined by the totals whenever the maximum is unique. -/
theorem selectBest_unique_max (v : Card → Int) :
    ∀ (legal : List Card) (r m : Card), m ∈ legal →
    (∀ c ∈ legal, c ≠ m → v c < v m) → v r < v m →
    selectBest v legal r = m := by
  intro legal
  induction legal with
  | nil => intro r m hm _ _; exact absurd hm (List.not_mem_nil m)
  | cons a rest ih =>
    intro r m hm huniq hr
    rw [selectBest_cons]
    by_cases ham : a = m
    · subst ham
      rw [if_pos hr]
      refine selectBest_stay v rest a ?_
      intro c hc
      by_cases hcm : c = a
      · exact le_of_eq (by rw [hcm])
      · exact le_of_lt (huniq c (List.mem_cons_of_mem _ hc) hcm)
    · have hm' : m ∈ rest := by
        rcases List.mem_cons.mp hm with h | h
        · exact absurd h.symm ham
        · exact h
      have hvb : v (if v r < v a then a else r) < v m := by
        split
        · exact huniq a (List.mem_cons_self _ _) ham
        · exact hr
      exact ih (if v r < v a then a else r) m hm'
        (fun c hc hcm => huniq c (List.mem_cons_of_mem _ hc) hcm) hvb

/-- C8 counterexample: two runs with the identical (all-zero) per-action
reward totals over the legal actions [♠2, ♥2] return different actions —
the run whose randomly pre-drawn initial candidate (line 610 of
`multi_agents.py`) is ♠2 returns ♠2, the run whose candidate is ♥2
returns ♥2.  The returned action is not a function of the totals, and
ties are not broken by the iteration order over the legal list. -/
theorem rollout_choice_not_determined :
    selectBest (fun _ => 0) [Card.mk 0 0, Card.mk 0 1] (Card.mk 0 0) = Card.mk 0 0
    ∧ selectBest (fun _ => 0) [Card.mk 0 0, Card.mk 0 1] (Card.mk 0 1) = Card.mk 0 1
    ∧ Card.mk 0 0 ≠ Card.mk 0 1 := by
  decide

/-- C8 amended: given the totals and the initial candidate drawn
uniformly at random before the simulations, the aggregation loop is
deterministic: it returns an action attaining the maximum total among
the candidate and the legal actions; if one legal action's total is
strictly greater than all others and than the candidate's, that action
is returned (totals-determined when the maximum is unique); and when no
legal action strictly exceeds the candidate's total the candidate
itself is returned — so on ties the result depends on the random
candidate, not on the iteration order. -/
theorem rollout_choice_characterization (v : Card → Int) (legal : List Card)
    (r : Card) :
    (selectBest v legal r = r ∨ selectBest v legal r ∈ legal)
    ∧ v r ≤ v (selectBest v legal r)
    ∧ (∀ c ∈ legal, v c ≤ v (selectBest v legal r))
    ∧ ((∀ c ∈ legal, v c ≤ v r) → selectBest v legal r = r)
    ∧ (∀ m ∈ legal, (∀ c ∈ legal, c ≠ m → v c < v m) → v r < v m →
        selectBest v legal r = m) :=
  ⟨selectBest_mem v legal r, (selectBest_ge v legal r).1,
    (selectBest_ge v legal r).2, selectBest_stay v legal r,
    fun m hm huniq hr => selectBest_unique_max v legal r m hm huniq hr⟩

/-- Witness for the amended C8: with totals (♦7 ↦ 3, everything else 0)
and initial candidate ♠2, the loop returns the unique maximum ♦7. -/
theorem rollout_choice_characterization_witness :
    ((fun c : Card => if c = Card.mk 5 2 then (3 : Int) else 0) (Card.mk 0 0)
      < (fun c : Card => if c = Card.mk 5 2 then (3 : Int) else 0) (Card.mk 5 2))
    ∧ selectBest (fun c : Card => if c = Card.mk 5 2 then (3 : Int) else 0)
        [Card.mk 0 1, Card.mk 5 2] (Card.mk 0 0) = Card.mk 5 2 :=
  ⟨by decide,
    (rollout_choice_characterization
        (fun c : Card => if c = Card.mk 5 2 then (3 : Int) else 0)
        [Card.mk 0 1, Card.mk 5 2] (Card.mk 0 0)).2.2.2.2
      (Card.mk 5 2) (by decide) (by decide) (by decide)⟩

/-- `apply_action` never rebinds the state's object references: the
successor state object keeps pointing at the same hand, trick and
counter objects. -/
theorem applyActionR_refs (h : Heap) (s : StateR) (c : Card) :
    (applyActionR h s c).2.handRef = s.handRef
    ∧ (applyActionR h s c).2.trickRef = s.trickRef
    ∧ (applyActionR h s c).2.cntRef = s.cntRef := by
  unfold applyActionR
  dsimp only
  split <;> exact ⟨rfl, rfl, rfl⟩

/-- `apply_action` writes only through the acting state's references:
any object that is none of the current player's hand, the state's trick
or its counter dictionary is untouched. -/
theorem applyActionR_heap_frame (h : Heap) (s : StateR) (c : Card) (i : Nat)
    (hh : ∀ p, i ≠ s.handRef p) (ht : i ≠ s.trickRef) (hc : i ≠ s.cntRef) :
    (applyActionR h s c).1[i]? = h[i]? := by
  unfold applyActionR
  dsimp only
  split
  · rw [List.getElem?_set_ne (fun e => ht e.symm),
      List.getElem?_set_ne (fun e => hc e.symm),
      List.getElem?_set_ne (fun e => (hh s.currPlayer) e.symm)]
  · rw [List.getElem?_set_ne (fun e => ht e.symm),
      List.getElem?_set_ne (fun e => (hh s.currPlayer) e.symm)]

/-- Running any action sequence through a state whose references all
live at or above `n` leaves every heap cell below `n` untouched. -/
theorem applySeqR_frame (n : Nat) (h0 : Heap) :
    ∀ (acts : List Card) (hs : Heap × StateR),
    (∀ p, n ≤ hs.2.handRef p) → n ≤ hs.2.trickRef → n ≤ hs.2.cntRef →
    (∀ i, i < n → hs.1[i]? = h0[i]?) →
    ∀ i, i < n → (applySeqR hs acts).1[i]? = h0[i]? := by
  intro acts
  induction acts with
  | nil =>
    intro hs _ _ _ hagree i hi
    exact hagree i hi
  | cons a rest ih =>
    intro hs hhand htr hcnt hagree i hi
    obtain ⟨hr1, hr2, hr3⟩ := applyActionR_refs hs.1 hs.2 a
    have hstep : applySeqR hs (a :: rest)
        = applySeqR (applyActionR hs.1 hs.2 a) rest := rfl
    rw [hstep]
    have hhand' : ∀ p, n ≤ (applyActionR hs.1 hs.2 a).2.handRef p := by
      intro p; rw [hr1]; exact hhand p
    have htr' : n ≤ (applyActionR hs.1 hs.2 a).2.trickRef := by
      rw [hr2]; exact htr
    have hcnt' : n ≤ (applyActionR hs.1 hs.2 a).2.cntRef := by
      rw [hr3]; exact hcnt
    have hagree' : ∀ j, j < n → (applyActionR hs.1 hs.2 a).1[j]? = h0[j]? := by
      intro j hj
      rw [applyActionR_heap_frame hs.1 hs.2 a j
        (fun p => Nat.ne_of_lt (lt_of_lt_of_le hj (hhand p)))
        (Nat.ne_of_lt (lt_of_lt_of_le hj htr))
        (Nat.ne_of_lt (lt_of_lt_of_le hj hcnt))]
      exact hagree j hj
    exact ih (applyActionR hs.1 hs.2 a) hhand' htr' hcnt' hagree' i hi

/-- Heap cells with equal contents read equally. -/
theorem readHand_congr (h h' : Heap) (i : Nat) (e : h'[i]? = h[i]?) :
    readHand h' i = readHand h i := by
  unfold readHand
  rw [e]

/-- Heap cells with equal contents read equally (trick objects). -/
theorem readTrick_congr (h h' : Heap) (i : Nat) (e : h'[i]? = h[i]?) :
    readTrick h' i = readTrick h i := by
  unfold readTrick
  rw [e]

/-- Heap cells with equal contents read equally (counter objects). -/
theorem readCnt_congr (h h' : Heap) (i : Nat) (e : h'[i]? = h[i]?) :
    readCnt h' i = readCnt h i := by
  unfold readCnt
  rw [e]

/-- C4: clone independence of `get_successor`.  For a state `s` whose
hand/trick/counter objects live in the heap `h`, a legal action `a` and
any sequence of further actions applied to the clone returned by
`get_successor`, the original state's four hands, its current trick and
its tricks-won counters read back unchanged: the clone allocates fresh
objects for all of them and every subsequent `apply_action` writes only
through the clone's own references. -/
theorem successor_independent (h : Heap) (s : StateR) (a : Card)
    (acts : List Card)
    (hwf1 : ∀ p, s.handRef p < h.length)
    (hwf2 : s.trickRef < h.length)
    (hwf3 : s.cntRef < h.length)
    (ha : a ∈ getLegalActionsR h s) :
    (∀ p, readHand (applySeqR (getSuccessorR h s a) acts).1 (s.handRef p)
        = readHand h (s.handRef p))
    ∧ readTrick (applySeqR (getSuccessorR h s a) acts).1 s.trickRef
        = readTrick h s.trickRef
    ∧ readCnt (applySeqR (getSuccessorR h s a) acts).1 s.cntRef
        = readCnt h s.cntRef := by
  have hkey : ∀ i, i < h.length →
      (applySeqR (getSuccessorR h s a) acts).1[i]? = h[i]? := by
    intro i hi
    have heq : applySeqR (getSuccessorR h s a) acts
        = applySeqR
            (h ++
              [Cell.hcell (readHand h (s.handRef Position.N)),
               Cell.hcell (readHand h (s.handRef Position.E)),
               Cell.hcell (readHand h (s.handRef Position.S)),
               Cell.hcell (readHand h (s.handRef Position.W)),
               Cell.tcell (readTrick h s.trickRef),
               Cell.ccell (readCnt h s.cntRef)],
             { handRef := fun p => h.length + posIdx p
               trickRef := h.length + 4
               cntRef := h.length + 5
               currPlayer := s.currPlayer
               alreadyPlayed := []
               trump := s.trump })
            (a :: acts) := rfl
    rw [heq]
    refine applySeqR_frame h.length h (a :: acts) _ ?_ ?_ ?_ ?_ i hi
    · intro p
      exact Nat.le_add_right _ _
    · exact Nat.le_add_right _ _
    · exact Nat.le_add_right _ _
    · intro j hj
      exact List.getElem?_append_left hj
  refine ⟨?_, ?_, ?_⟩
  · intro p
    exact readHand_congr h _ _ (hkey (s.handRef p) (hwf1 p))
  · exact readTrick_congr h _ _ (hkey s.trickRef hwf2)
  · exact readCnt_congr h _ _ (hkey s.cntRef hwf3)

/-- Witness for C4 on the concrete heap `sampleHeap`: North's clone
plays the ♠2, then the clone continues with East's ♥2; the original's
hand objects, trick object and counter dictionary are unchanged. -/
theorem successor_independent_witness :
    (Card.mk 0 0 ∈ getLegalActionsR sampleHeap sampleStateR)
    ∧ readHand (applySeqR (getSuccessorR sampleHeap sampleStateR (Card.mk 0 0))
        [Card.mk 0 1]).1 (sampleStateR.handRef Position.N)
        = readHand sampleHeap (sampleStateR.handRef Position.N)
    ∧ readTrick (applySeqR (getSuccessorR sampleHeap sampleStateR (Card.mk 0 0))
        [Card.mk 0 1]).1 sampleStateR.trickRef
        = readTrick sampleHeap sampleStateR.trickRef
    ∧ readCnt (applySeqR (getSuccessorR sampleHeap sampleStateR (Card.mk 0 0))
        [Card.mk 0 1]).1 sampleStateR.cntRef
        = readCnt sampleHeap sampleStateR.cntRef := by
  have hmain := successor_independent sampleHeap sampleStateR (Card.mk 0 0)
    [Card.mk 0 1] (by decide) (by decide) (by decide) (by decide)
  exact ⟨by decide, hmain.1 Position.N, hmain.2.1, hmain.2.2⟩
